import Mathlib

/-!
Verification of the detection post-processing pipeline of the MobileTemplate
repository: box decoding, non-max suppression, coordinate mapping between
model / native / displayed spaces, and center selection.

Numbers are modelled as exact rationals (`ℚ`); TypeScript field `class` is
rendered as `cls` (Lean keyword clash).
-/

/-- A detection bounding box plus label info, as in `NativeCamera.tsx` /
`part_009` (`type Detection = { x, y, width, height, score, class }`). -/
structure Detection where
  x : ℚ
  y : ℚ
  width : ℚ
  height : ℚ
  score : ℚ
  cls : ℚ
deriving DecidableEq, Repr

/-- One raw model-output row `[cx, cy, w, h, score, classId]` in model-input
(640×640) pixel units. -/
structure RawCandidate where
  cx : ℚ
  cy : ℚ
  w : ℚ
  h : ℚ
  score : ℚ
  cls : ℚ
deriving DecidableEq, Repr

/-- `xywh2xyxy` from `part_011`: converts `[cx, cy, w, h]` to
`[x1, y1, x2, y2]` (center-size → corner form). -/
def xywh2xyxy (cx cy w h : ℚ) : ℚ × ℚ × ℚ × ℚ :=
  (cx - w / 2, cy - h / 2, cx + w / 2, cy + h / 2)

/-- `convertToBoundingBox` from `NativeCamera.tsx` (identical to the inline
decode step of `detectObjects` in `part_009`): raw `[cx, cy, w, h, score,
class]` → bounding box scaled from 640-space to the native frame. -/
def convertToBoundingBox (det : RawCandidate) (originalWidth originalHeight : ℚ) :
    Detection :=
  { x := (det.cx - det.w / 2) * (originalWidth / 640)
    y := (det.cy - det.h / 2) * (originalHeight / 640)
    width := det.w * (originalWidth / 640)
    height := det.h * (originalHeight / 640)
    score := det.score
    cls := det.cls }

/-- `mapToDisplayed` from `part_009`: maps a native-frame-space box to the
displayed ("cover"-cropped) viewport space. -/
def mapToDisplayed (det : Detection) (videoW videoH displayedW displayedH : ℚ) :
    Detection :=
  if videoW / videoH > displayedW / displayedH then
    -- Video is wider, crop sides
    let source_height := videoH
    let source_width := videoH * (displayedW / displayedH)
    let source_x := (videoW - source_width) / 2
    let source_y := (0 : ℚ)
    { x := ((det.x - source_x) / source_width) * displayedW
      y := ((det.y - source_y) / source_height) * displayedH
      width := (det.width / source_width) * displayedW
      height := (det.height / source_height) * displayedH
      score := det.score
      cls := det.cls }
  else
    -- Video is taller, crop top/bottom
    let source_width := videoW
    let source_height := videoW * (displayedH / displayedW)
    let source_x := (0 : ℚ)
    let source_y := (videoH - source_height) / 2
    { x := ((det.x - source_x) / source_width) * displayedW
      y := ((det.y - source_y) / source_height) * displayedH
      width := (det.width / source_width) * displayedW
      height := (det.height / source_height) * displayedH
      score := det.score
      cls := det.cls }

/-- JavaScript's `Number.MAX_VALUE`, the exact value of the largest finite
IEEE-754 double: `(2^53 - 1) * 2^971`. -/
def maxValue : ℚ := (2 ^ 53 - 1) * 2 ^ 971

/-- Squared distance between the center of `det` and the point
`(cx, cy)`, as computed inside `pickCenterDetection`. -/
def centerDist (det : Detection) (cx cy : ℚ) : ℚ :=
  (det.x + det.width / 2 - cx) ^ 2 + (det.y + det.height / 2 - cy) ^ 2

/-- The `forEach` accumulation loop of `pickCenterDetection`: carries the
running index, current `minDist` and current `bestIndex`. -/
def pickCenterLoop (cx cy : ℚ) : List Detection → ℤ → ℚ → ℤ → ℤ
  | [], _, _, best => best
  | d :: rest, idx, minDist, best =>
      if centerDist d cx cy < minDist then
        pickCenterLoop cx cy rest (idx + 1) (centerDist d cx cy) idx
      else
        pickCenterLoop cx cy rest (idx + 1) minDist best

/-- `pickCenterDetection` from `NativeCamera.tsx` / `part_009`: index of the
detection whose center is closest to the screen center, `-1` on an empty
list.  `minDist` starts at `Number.MAX_VALUE` and `bestIndex` at `-1`,
exactly as in the source. -/
def pickCenterDetection (allDets : List Detection) (width height : ℚ) : ℤ :=
  if allDets.isEmpty then -1
  else pickCenterLoop (width / 2) (height / 2) allDets 0 maxValue (-1)

/-- The per-row maximum-score scan of `candidateScores` in `part_009`
(first file, lines 84–94): `maxScore` starts at `0`, `classId` at `-1`,
and an entry updates them only when strictly greater than the running
maximum. -/
def candidateScoreLoop : List ℚ → ℤ → ℚ → ℤ → ℚ × ℤ
  | [], _, maxScore, classId => (maxScore, classId)
  | v :: rest, i, maxScore, classId =>
      if v > maxScore then candidateScoreLoop rest (i + 1) v i
      else candidateScoreLoop rest (i + 1) maxScore classId

/-- One element of `candidateScores` from `part_009`: the maximum score and
its class index for one row of per-class scores. -/
def candidateScore (row : List ℚ) : ℚ × ℤ :=
  candidateScoreLoop row 0 0 (-1)

/-! ## Non-max suppression

The repository imports `nonMaxSuppression` from `@/utils/nonMaxSuppression`,
whose implementation file is not part of the sources here; only its call
sites are.  The definitions below are therefore modelled from the spec
(§4.2): IoU on corner-form boxes, filtering of sub-threshold scores, a
stable descending sort by score, and the greedy suppression sweep bounded
by `maxOutputs`. -/

/-- Left corner `x1 = cx - w/2` of a raw candidate. -/
def RawCandidate.x1 (a : RawCandidate) : ℚ := a.cx - a.w / 2

/-- Right corner `x2 = cx + w/2` of a raw candidate. -/
def RawCandidate.x2 (a : RawCandidate) : ℚ := a.cx + a.w / 2

/-- Top corner `y1 = cy - h/2` of a raw candidate. -/
def RawCandidate.y1 (a : RawCandidate) : ℚ := a.cy - a.h / 2

/-- Bottom corner `y2 = cy + h/2` of a raw candidate. -/
def RawCandidate.y2 (a : RawCandidate) : ℚ := a.cy + a.h / 2

/-- Overlap length of the intervals `[a1, a2]` and `[b1, b2]`, clamped at
zero. -/
def interLen (a1 a2 b1 b2 : ℚ) : ℚ := max 0 (min a2 b2 - max a1 b1)

/-- Modelled from the spec: the intersection area of two candidate boxes in
corner form. -/
def interArea (a b : RawCandidate) : ℚ :=
  interLen a.x1 a.x2 b.x1 b.x2 * interLen a.y1 a.y2 b.y1 b.y2

/-- Area of a candidate box in corner form, `(x2 - x1) * (y2 - y1)`. -/
def boxArea (a : RawCandidate) : ℚ := (a.x2 - a.x1) * (a.y2 - a.y1)

/-- Modelled from the spec: Intersection-over-Union,
`intersectionArea / (areaA + areaB - intersectionArea)` (§4.2); it is zero
when the boxes do not overlap. -/
def iou (a b : RawCandidate) : ℚ :=
  interArea a b / (boxArea a + boxArea b - interArea a b)

/-- Modelled from the spec: stable insertion of a candidate into a
score-descending list — the new element goes before the first strictly
lower score, so equal scores keep their original (index-ascending) order
(§4.2 step 2). -/
def insertDesc (a : RawCandidate) : List RawCandidate → List RawCandidate
  | [] => [a]
  | b :: t => if a.score > b.score then a :: b :: t else b :: insertDesc a t

/-- Modelled from the spec: stable sort by score descending, ties broken by
original candidate index ascending (§4.2 step 2). -/
def sortDesc : List RawCandidate → List RawCandidate
  | [] => []
  | a :: t => insertDesc a (sortDesc t)

/-- Modelled from the spec: the greedy suppression sweep (§4.2 step 3) —
take the highest-scoring remaining box, keep it, drop every remaining box
whose IoU with it exceeds `iouThreshold`, and stop once `maxOutputs` boxes
have been kept or the input is exhausted. -/
def suppressLoop (iouThreshold : ℚ) : ℕ → List RawCandidate → List RawCandidate
  | 0, _ => []
  | _, [] => []
  | Nat.succ k, b :: rest =>
      b :: suppressLoop iouThreshold k
        (rest.filter fun r => iou b r ≤ iouThreshold)

/-- Modelled from the spec: `nonMaxSuppression` (the implementation under
`@/utils/nonMaxSuppression` is absent from the sources) — filter out every
candidate with `score < scoreThreshold`, sort the rest by score descending
(stable), then run the greedy suppression sweep (§4.2). -/
def nonMaxSuppression (dets : List RawCandidate) (scoreThreshold iouThreshold : ℚ)
    (maxOutputs : ℕ) : List RawCandidate :=
  suppressLoop iouThreshold maxOutputs
    (sortDesc (dets.filter fun d => scoreThreshold ≤ d.score))

/-! ## Spec-side coordinate mapping and the detection cycle -/

/-- Spec-side visible source rectangle of the cover mapping, written from
the claim's words (§4.3): returns `(sourceX, sourceY, visibleWidth,
visibleHeight)`. -/
def specSourceRect (nativeWidth nativeHeight displayedWidth displayedHeight : ℚ) :
    ℚ × ℚ × ℚ × ℚ :=
  if nativeWidth / nativeHeight > displayedWidth / displayedHeight then
    ((nativeWidth - nativeHeight * (displayedWidth / displayedHeight)) / 2, 0,
      nativeHeight * (displayedWidth / displayedHeight), nativeHeight)
  else
    (0, (nativeHeight - nativeWidth * (displayedHeight / displayedWidth)) / 2,
      nativeWidth, nativeWidth * (displayedHeight / displayedWidth))

/-- Spec-side native → displayed mapping, written from the claim's words:
`displayedX = (nativeX - sourceX) / visibleWidth * displayedWidth`, and
analogously for y, width and height. -/
def specMapToDisplayed (det : Detection)
    (nativeWidth nativeHeight displayedWidth displayedHeight : ℚ) : Detection :=
  let r := specSourceRect nativeWidth nativeHeight displayedWidth displayedHeight
  { x := (det.x - r.1) / r.2.2.1 * displayedWidth
    y := (det.y - r.2.1) / r.2.2.2 * displayedHeight
    width := det.width / r.2.2.1 * displayedWidth
    height := det.height / r.2.2.2 * displayedHeight
    score := det.score
    cls := det.cls }

/-- Modelled from the spec: the displayed → native inverse of the cover
mapping (§8 round-trip property; no such function appears in the sources),
inverting `displayedX = (nativeX - sourceX) / visibleWidth * displayedWidth`
field by field over the same visible source rectangle. -/
def mapToNative (det : Detection)
    (nativeWidth nativeHeight displayedWidth displayedHeight : ℚ) : Detection :=
  let r := specSourceRect nativeWidth nativeHeight displayedWidth displayedHeight
  { x := det.x / displayedWidth * r.2.2.1 + r.1
    y := det.y / displayedHeight * r.2.2.2 + r.2.1
    width := det.width / displayedWidth * r.2.2.1
    height := det.height / displayedHeight * r.2.2.2
    score := det.score
    cls := det.cls }

/-- Frame geometry: native sensor resolution and on-screen viewport size. -/
structure FrameGeom where
  videoW : ℚ
  videoH : ℚ
  displayedW : ℚ
  displayedH : ℚ
deriving DecidableEq, Repr

/-- Result of one detection cycle: the native-space detection list, the
chosen index (`-1` for none) and the argument handed to the `onDetection`
callback (`none` for `null`). -/
structure PipelineResult where
  detections : List Detection
  chosenIndex : ℤ
  callbackArg : Option Detection
deriving DecidableEq, Repr

/-- The post-inference part of `detectObjects` from `part_009` (second
file, lines 353–397): run `nonMaxSuppression` on the raw rows, filter by
the score threshold, decode the survivors into native-space boxes, map them
to displayed space, pick the center-most detection, and report the chosen
native-space detection (or `null`) to the callback. -/
def detectObjects (raw : List RawCandidate) (g : FrameGeom) (threshold : ℚ)
    (scoreThreshold iouThreshold : ℚ) (maxOutputs : ℕ) : PipelineResult :=
  let allDetections := nonMaxSuppression raw scoreThreshold iouThreshold maxOutputs
  let filteredDetections := allDetections.filter fun det => det.score ≥ threshold
  let newDetections := filteredDetections.map fun det =>
    convertToBoundingBox det g.videoW g.videoH
  let displayedDets := newDetections.map fun det =>
    mapToDisplayed det g.videoW g.videoH g.displayedW g.displayedH
  let chosenDetIndex := pickCenterDetection displayedDets g.displayedW g.displayedH
  { detections := newDetections
    chosenIndex := chosenDetIndex
    callbackArg :=
      if chosenDetIndex ≥ 0 then newDetections.get? chosenDetIndex.toNat else none }

/-! ## Helper lemmas -/

theorem suppressLoop_nil (i : ℚ) (k : ℕ) : suppressLoop i k [] = [] := by
  cases k <;> rfl

theorem mem_suppressLoop {i : ℚ} :
    ∀ {k : ℕ} {l : List RawCandidate} {x : RawCandidate},
      x ∈ suppressLoop i k l → x ∈ l := by
  intro k
  induction k with
  | zero => intro l x hx; simp [suppressLoop] at hx
  | succ k ih =>
    intro l x hx
    cases l with
    | nil => simp [suppressLoop] at hx
    | cons b rest =>
      simp only [suppressLoop, List.mem_cons] at hx
      rcases hx with hx | hx
      · exact hx ▸ List.mem_cons_self b rest
      · exact List.mem_cons_of_mem b (List.mem_of_mem_filter (ih hx))

theorem pairwise_suppressLoop (i : ℚ) :
    ∀ (k : ℕ) (l : List RawCandidate),
      (suppressLoop i k l).Pairwise fun x y => iou x y ≤ i := by
  intro k
  induction k with
  | zero => intro l; simp [suppressLoop]
  | succ k ih =>
    intro l
    cases l with
    | nil => simp [suppressLoop]
    | cons b rest =>
      refine List.Pairwise.cons ?_ (ih _)
      intro y hy
      have := List.of_mem_filter (mem_suppressLoop hy)
      exact of_decide_eq_true this

theorem interLen_comm (a1 a2 b1 b2 : ℚ) :
    interLen a1 a2 b1 b2 = interLen b1 b2 a1 a2 := by
  unfold interLen
  rw [min_comm, max_comm a1 b1]

theorem interArea_comm (a b : RawCandidate) : interArea a b = interArea b a := by
  unfold interArea
  rw [interLen_comm a.x1, interLen_comm a.y1]

theorem iou_comm (a b : RawCandidate) : iou a b = iou b a := by
  unfold iou
  rw [interArea_comm, add_comm (boxArea a)]

theorem mem_insertDesc {a x : RawCandidate} :
    ∀ {l : List RawCandidate}, x ∈ insertDesc a l ↔ x = a ∨ x ∈ l := by
  intro l
  induction l with
  | nil => simp [insertDesc]
  | cons b t ih =>
    by_cases hab : a.score > b.score
    · simp [insertDesc, hab]
    · simp only [insertDesc, if_neg hab, List.mem_cons, ih]
      tauto

theorem mem_sortDesc {x : RawCandidate} :
    ∀ {l : List RawCandidate}, x ∈ sortDesc l ↔ x ∈ l := by
  intro l
  induction l with
  | nil => simp [sortDesc]
  | cons a t ih => simp [sortDesc, mem_insertDesc, ih]

theorem pairwise_insertDesc {a : RawCandidate} {l : List RawCandidate}
    (hl : l.Pairwise fun x y => y.score ≤ x.score) :
    (insertDesc a l).Pairwise fun x y => y.score ≤ x.score := by
  induction l with
  | nil => simp [insertDesc]
  | cons b t ih =>
    rcases List.pairwise_cons.mp hl with ⟨hb, ht⟩
    by_cases hab : a.score > b.score
    · rw [insertDesc, if_pos hab]
      refine List.Pairwise.cons ?_ hl
      intro y hy
      rcases List.mem_cons.mp hy with hy | hy
      · exact hy ▸ le_of_lt hab
      · exact le_trans (hb y hy) (le_of_lt hab)
    · rw [insertDesc, if_neg hab]
      refine List.Pairwise.cons ?_ (ih ht)
      intro y hy
      rcases mem_insertDesc.mp hy with hy | hy
      · exact hy ▸ le_of_not_lt hab
      · exact hb y hy

theorem pairwise_sortDesc (l : List RawCandidate) :
    (sortDesc l).Pairwise fun x y => y.score ≤ x.score := by
  induction l with
  | nil => simp [sortDesc]
  | cons a t ih => exact pairwise_insertDesc ih

theorem filter_filter_comm {α : Type} (p q : α → Bool) (l : List α) :
    (l.filter q).filter p = (l.filter p).filter q := by
  induction l with
  | nil => rfl
  | cons a t ih =>
    by_cases hp : p a = true <;> by_cases hq : q a = true <;>
      simp [List.filter_cons, hp, hq, ih]

theorem filter_insertDesc (thr : ℚ) (a : RawCandidate) :
    ∀ {m : List RawCandidate}, (m.Pairwise fun x y => y.score ≤ x.score) →
      (insertDesc a m).filter (fun d => thr ≤ d.score)
        = if thr ≤ a.score then
            insertDesc a (m.filter fun d => thr ≤ d.score)
          else m.filter fun d => thr ≤ d.score := by
  intro m
  induction m with
  | nil =>
    intro _
    by_cases hpa : thr ≤ a.score <;> simp [insertDesc, List.filter_cons, hpa]
  | cons b t ih =>
    intro hm
    rcases List.pairwise_cons.mp hm with ⟨hb, ht⟩
    by_cases hab : a.score > b.score
    · rw [insertDesc, if_pos hab]
      by_cases hpa : thr ≤ a.score
      · rw [if_pos hpa]
        by_cases hpb : thr ≤ b.score
        · simp [List.filter_cons, hpa, hpb, insertDesc, hab]
        · have htnil : t.filter (fun d => thr ≤ d.score) = [] := by
            rw [List.filter_eq_nil_iff]
            intro x hx
            simp only [decide_eq_true_eq]
            intro hcon
            exact hpb (le_trans hcon (hb x hx))
          simp [List.filter_cons, hpa, hpb, htnil, insertDesc]
      · rw [if_neg hpa]
        simp [List.filter_cons, hpa]
    · rw [insertDesc, if_neg hab]
      have has : a.score ≤ b.score := le_of_not_lt hab
      by_cases hpa : thr ≤ a.score
      · have hpb : thr ≤ b.score := le_trans hpa has
        rw [if_pos hpa]
        rw [List.filter_cons_of_pos (by simpa using hpb), ih ht, if_pos hpa,
          List.filter_cons_of_pos (by simpa using hpb), insertDesc, if_neg hab]
      · rw [if_neg hpa]
        by_cases hpb : thr ≤ b.score <;>
          simp [List.filter_cons, hpb, ih ht, hpa]

theorem filter_sortDesc (thr : ℚ) (l : List RawCandidate) :
    (sortDesc l).filter (fun d => thr ≤ d.score)
      = sortDesc (l.filter fun d => thr ≤ d.score) := by
  induction l with
  | nil => rfl
  | cons a t ih =>
    rw [sortDesc, filter_insertDesc thr a (pairwise_sortDesc t), ih]
    by_cases hpa : thr ≤ a.score <;> simp [List.filter_cons, hpa, sortDesc]

theorem filter_suppressLoop (thr i : ℚ) :
    ∀ (n : ℕ) (l : List RawCandidate), l.length ≤ n →
      (l.Pairwise fun x y => y.score ≤ x.score) → ∀ (k : ℕ),
      (suppressLoop i k l).filter (fun d => thr ≤ d.score)
        = suppressLoop i k (l.filter fun d => thr ≤ d.score) := by
  intro n
  induction n with
  | zero =>
    intro l hl _ k
    have hnil : l = [] := List.length_eq_zero.mp (Nat.le_zero.mp hl)
    subst hnil
    simp [suppressLoop_nil]
  | succ n ih =>
    intro l hl hp k
    cases l with
    | nil => simp [suppressLoop_nil]
    | cons b rest =>
      cases k with
      | zero => simp [suppressLoop]
      | succ k =>
        rcases List.pairwise_cons.mp hp with ⟨hb, hrest⟩
        by_cases hpb : thr ≤ b.score
        · rw [suppressLoop]
          rw [List.filter_cons_of_pos (by simpa using hpb)]
          have hlen : (rest.filter fun r => iou b r ≤ i).length ≤ n :=
            le_trans (List.length_filter_le _ _) (Nat.le_of_succ_le_succ hl)
          have hpf : ((rest.filter fun r => iou b r ≤ i).Pairwise
              fun x y => y.score ≤ x.score) :=
            hrest.sublist (List.filter_sublist _)
          rw [ih _ hlen hpf k]
          rw [List.filter_cons_of_pos (by simpa using hpb), suppressLoop]
          rw [filter_filter_comm]
        · have hnone : ∀ x ∈ rest, ¬ thr ≤ x.score := by
            intro x hx hcon
            exact hpb (le_trans hcon (hb x hx))
          have hfrest : (rest.filter fun d => thr ≤ d.score) = [] := by
            rw [List.filter_eq_nil_iff]
            intro x hx
            simpa using hnone x hx
          rw [suppressLoop, List.filter_cons_of_neg (by simpa using hpb)]
          have hsub : ((suppressLoop i k (rest.filter fun r => iou b r ≤ i)).filter
              fun d => thr ≤ d.score) = [] := by
            rw [List.filter_eq_nil_iff]
            intro x hx
            have hxrest : x ∈ rest :=
              List.mem_of_mem_filter (mem_suppressLoop hx)
            simpa using hnone x hxrest
          rw [hsub, List.filter_cons_of_neg (by simpa using hpb), hfrest,
            suppressLoop_nil]

theorem pairwise_mem_or {α : Type} {R : α → α → Prop} :
    ∀ {l : List α} {a b : α}, l.Pairwise R → a ∈ l → b ∈ l → a ≠ b →
      R a b ∨ R b a := by
  intro l
  induction l with
  | nil => intro a b _ ha; simp at ha
  | cons x t ih =>
    intro a b hp ha hb hab
    rcases List.pairwise_cons.mp hp with ⟨hx, ht⟩
    rcases List.mem_cons.mp ha with ha1 | ha2
    · rcases List.mem_cons.mp hb with hb1 | hb2
      · exact absurd (ha1.trans hb1.symm) hab
      · subst ha1
        exact Or.inl (hx b hb2)
    · rcases List.mem_cons.mp hb with hb1 | hb2
      · subst hb1
        exact Or.inr (hx a ha2)
      · exact ih ht ha2 hb2 hab

/-! ## Claim theorems -/

/-- C1: for every box and every frame geometry with positive dimensions,
`mapToDisplayed` first computes the visible source rectangle of the cover
crop (full height with horizontally centered crop when the native frame is
proportionally wider, full width with vertically centered crop otherwise)
and then returns `displayedX = (nativeX - sourceX) / visibleWidth *
displayedWidth`, analogously for y, width and height: it coincides with the
mapping written from the spec's words. -/
theorem c1_mapToDisplayed_cover (det : Detection) (vW vH dW dH : ℚ)
    (h1 : 0 < vW) (h2 : 0 < vH) (h3 : 0 < dW) (h4 : 0 < dH) :
    mapToDisplayed det vW vH dW dH = specMapToDisplayed det vW vH dW dH := by
  by_cases hc : vW / vH > dW / dH <;>
    simp [mapToDisplayed, specMapToDisplayed, specSourceRect, hc]

theorem c1_witness :
    (0:ℚ) < 1920 ∧ (0:ℚ) < 1080 ∧ (0:ℚ) < 360 ∧ (0:ℚ) < 640 ∧
    mapToDisplayed ⟨10, 20, 30, 40, 1/2, 3⟩ 1920 1080 360 640
      = specMapToDisplayed ⟨10, 20, 30, 40, 1/2, 3⟩ 1920 1080 360 640 :=
  ⟨by norm_num, by norm_num, by norm_num, by norm_num,
    c1_mapToDisplayed_cover ⟨10, 20, 30, 40, 1/2, 3⟩ 1920 1080 360 640
      (by norm_num) (by norm_num) (by norm_num) (by norm_num)⟩

/-- C2: the box decoder combined with the model → native scale yields
`x = (cx - w/2) * nativeWidth/640`, `y = (cy - h/2) * nativeHeight/640`,
`width = w * nativeWidth/640`, `height = h * nativeHeight/640`, with score
and classId carried through unchanged; equivalently, the center-size →
corner-size decode `xywh2xyxy` followed by independent linear scaling of
x, y, width, height. -/
theorem c2_decoder_scale (cx cy w h s c nativeW nativeH : ℚ) :
    convertToBoundingBox ⟨cx, cy, w, h, s, c⟩ nativeW nativeH
        = { x := (cx - w / 2) * nativeW / 640
            y := (cy - h / 2) * nativeH / 640
            width := w * nativeW / 640
            height := h * nativeH / 640
            score := s
            cls := c }
      ∧ convertToBoundingBox ⟨cx, cy, w, h, s, c⟩ nativeW nativeH
        = { x := (xywh2xyxy cx cy w h).1 * (nativeW / 640)
            y := (xywh2xyxy cx cy w h).2.1 * (nativeH / 640)
            width := ((xywh2xyxy cx cy w h).2.2.1 - (xywh2xyxy cx cy w h).1)
              * (nativeW / 640)
            height := ((xywh2xyxy cx cy w h).2.2.2 - (xywh2xyxy cx cy w h).2.1)
              * (nativeH / 640)
            score := s
            cls := c } := by
  constructor <;>
    · simp only [convertToBoundingBox, xywh2xyxy, Detection.mk.injEq]
      and_intros <;> first | rfl | ring

/-- C10: the native → displayed mapping changes only the geometric fields;
score and class pass through unchanged for all positive geometry values. -/
theorem c10_mapToDisplayed_preserves_label (det : Detection) (vW vH dW dH : ℚ)
    (h1 : 0 < vW) (h2 : 0 < vH) (h3 : 0 < dW) (h4 : 0 < dH) :
    (mapToDisplayed det vW vH dW dH).score = det.score ∧
    (mapToDisplayed det vW vH dW dH).cls = det.cls := by
  unfold mapToDisplayed
  split <;> exact ⟨rfl, rfl⟩

theorem c10_witness :
    (0:ℚ) < 640 ∧
    (mapToDisplayed ⟨10, 20, 30, 40, 1/2, 3⟩ 640 480 360 800).score = (1:ℚ)/2 ∧
    (mapToDisplayed ⟨10, 20, 30, 40, 1/2, 3⟩ 640 480 360 800).cls = 3 :=
  ⟨by norm_num,
    (c10_mapToDisplayed_preserves_label ⟨10, 20, 30, 40, 1/2, 3⟩ 640 480 360 800
      (by norm_num) (by norm_num) (by norm_num) (by norm_num)).1,
    (c10_mapToDisplayed_preserves_label ⟨10, 20, 30, 40, 1/2, 3⟩ 640 480 360 800
      (by norm_num) (by norm_num) (by norm_num) (by norm_num)).2⟩

/-- C6 counterexample: the decoder does not zero the score of a malformed
candidate — a raw candidate with `w = -10 < 0` and raw score `9/10` decodes
to a Detection whose score is still `9/10`, not `0`. -/
theorem c6_cex :
    (⟨320, 320, -10, 10, 9/10, 0⟩ : RawCandidate).w < 0 ∧
    (convertToBoundingBox ⟨320, 320, -10, 10, 9/10, 0⟩ 640 640).score ≠ 0 := by
  norm_num [convertToBoundingBox]

/-- C6 amended: the decoder is a pure function of its inputs that carries
score and classId through unchanged for every candidate — in particular a
malformed candidate (`w < 0` or `h < 0`) keeps its raw score instead of
being zeroed. -/
theorem c6_decoder_passthrough (det : RawCandidate) (W H : ℚ) :
    (convertToBoundingBox det W H).score = det.score ∧
    (convertToBoundingBox det W H).cls = det.cls :=
  ⟨rfl, rfl⟩

/-- C5 counterexample: the pipeline stages do not establish the Detection
invariants — the decoder maps a candidate with `w = -10` to a box of
negative width, and the per-row score scan of `candidateScores` returns the
invalid class index `-1` when no row entry is positive. -/
theorem c5_cex :
    (convertToBoundingBox ⟨320, 320, -10, 10, 9/10, 0⟩ 640 640).width < 0 ∧
    (candidateScore [0, 0]).2 < 0 := by
  norm_num [convertToBoundingBox, candidateScore, candidateScoreLoop]

/-- C5 amended: the stages preserve the Detection invariants but do not
establish them — when the raw candidate already satisfies `w ≥ 0`, `h ≥ 0`,
`0 ≤ score ≤ 1` (and the frame dimensions are nonnegative), the decoded box
has nonnegative width and height, score still in `[0, 1]`, and classId
carried through unchanged; the suppression stage only selects a subset of
its input, so it too preserves the invariants. -/
theorem c5_invariant_preservation (d : RawCandidate) (W H : ℚ)
    (hw : 0 ≤ d.w) (hh : 0 ≤ d.h) (hW : 0 ≤ W) (hH : 0 ≤ H)
    (hs0 : 0 ≤ d.score) (hs1 : d.score ≤ 1) :
    0 ≤ (convertToBoundingBox d W H).width ∧
    0 ≤ (convertToBoundingBox d W H).height ∧
    0 ≤ (convertToBoundingBox d W H).score ∧
    (convertToBoundingBox d W H).score ≤ 1 ∧
    (convertToBoundingBox d W H).cls = d.cls ∧
    ∀ (l : List RawCandidate) (s i : ℚ) (m : ℕ) (r : RawCandidate),
      r ∈ nonMaxSuppression l s i m → r ∈ l := by
  refine ⟨?_, ?_, hs0, hs1, rfl, ?_⟩
  · exact mul_nonneg hw (div_nonneg hW (by norm_num))
  · exact mul_nonneg hh (div_nonneg hH (by norm_num))
  · intro l s i m r hr
    unfold nonMaxSuppression at hr
    exact List.mem_of_mem_filter (mem_sortDesc.mp (mem_suppressLoop hr))

theorem c5_witness :
    (0:ℚ) ≤ (⟨320, 320, 100, 100, 9/10, 0⟩ : RawCandidate).w ∧
    (0 ≤ (convertToBoundingBox ⟨320, 320, 100, 100, 9/10, 0⟩ 640 640).width ∧
      0 ≤ (convertToBoundingBox ⟨320, 320, 100, 100, 9/10, 0⟩ 640 640).height ∧
      0 ≤ (convertToBoundingBox ⟨320, 320, 100, 100, 9/10, 0⟩ 640 640).score ∧
      (convertToBoundingBox ⟨320, 320, 100, 100, 9/10, 0⟩ 640 640).score ≤ 1 ∧
      (convertToBoundingBox ⟨320, 320, 100, 100, 9/10, 0⟩ 640 640).cls
        = (⟨320, 320, 100, 100, 9/10, 0⟩ : RawCandidate).cls ∧
      ∀ (l : List RawCandidate) (s i : ℚ) (m : ℕ) (r : RawCandidate),
        r ∈ nonMaxSuppression l s i m → r ∈ l) :=
  ⟨by norm_num,
    c5_invariant_preservation ⟨320, 320, 100, 100, 9/10, 0⟩ 640 640
      (by norm_num) (by norm_num) (by norm_num) (by norm_num) (by norm_num)
      (by norm_num)⟩

/-- C3 counterexample: with `iouThreshold = 1/2`, the boxes
`a = (cx 7, cy 5, 10×10, score 9/10)` and `b = (cx 10, cy 5, 10×10, score
1/2)` overlap with IoU `7/13 > 1/2` and have distinct scores, yet the
suppression output for the input `[c, a, b]` (where `c` scores `95/100`
and suppresses `a` but not `b`) contains the lower-scoring `b` and not the
higher-scoring `a` — so the output does not retain only the
higher-scoring of the pair. -/
theorem c3_cex :
    (1:ℚ)/2 < iou ⟨7, 5, 10, 10, 9/10, 1⟩ ⟨10, 5, 10, 10, 1/2, 2⟩ ∧
    (⟨7, 5, 10, 10, 9/10, 1⟩ : RawCandidate).score
      ≠ (⟨10, 5, 10, 10, 1/2, 2⟩ : RawCandidate).score ∧
    (⟨10, 5, 10, 10, 1/2, 2⟩ : RawCandidate) ∈
      nonMaxSuppression
        [⟨5, 5, 10, 10, 95/100, 0⟩, ⟨7, 5, 10, 10, 9/10, 1⟩,
          ⟨10, 5, 10, 10, 1/2, 2⟩] 0 (1/2) 100 ∧
    (⟨7, 5, 10, 10, 9/10, 1⟩ : RawCandidate) ∉
      nonMaxSuppression
        [⟨5, 5, 10, 10, 95/100, 0⟩, ⟨7, 5, 10, 10, 9/10, 1⟩,
          ⟨10, 5, 10, 10, 1/2, 2⟩] 0 (1/2) 100 := by
  refine ⟨by norm_num [iou, interArea, interLen, boxArea, RawCandidate.x1,
    RawCandidate.x2, RawCandidate.y1, RawCandidate.y2, min_def, max_def], by norm_num, ?_, ?_⟩ <;>
    norm_num [nonMaxSuppression, sortDesc, insertDesc, suppressLoop, iou,
    interArea, interLen, boxArea, RawCandidate.x1, RawCandidate.x2,
    RawCandidate.y1, RawCandidate.y2, min_def, max_def, List.filter]

/-- C3 amended: for any two detections with IoU above `iouThreshold` and
distinct scores, the suppression output never contains both — greedy
suppression keeps the pairwise IoU of all survivors at or below the
threshold (the higher-scoring of the pair need not itself survive, since a
still higher-scoring box may have suppressed it). -/
theorem c3_nms_not_both (l : List RawCandidate) (s i : ℚ) (m : ℕ)
    (a b : RawCandidate) (hscore : a.score ≠ b.score) (hiou : i < iou a b) :
    ¬(a ∈ nonMaxSuppression l s i m ∧ b ∈ nonMaxSuppression l s i m) := by
  rintro ⟨ha, hb⟩
  have hne : a ≠ b := fun h => hscore (by rw [h])
  unfold nonMaxSuppression at ha hb
  have hp := pairwise_suppressLoop i m (sortDesc (l.filter fun d => s ≤ d.score))
  rcases pairwise_mem_or hp ha hb hne with h | h
  · exact absurd h (not_le.mpr hiou)
  · rw [iou_comm] at h
    exact absurd h (not_le.mpr hiou)

theorem c3_witness :
    (⟨7, 5, 10, 10, 9/10, 1⟩ : RawCandidate).score
      ≠ (⟨10, 5, 10, 10, 1/2, 2⟩ : RawCandidate).score ∧
    (1:ℚ)/2 < iou ⟨7, 5, 10, 10, 9/10, 1⟩ ⟨10, 5, 10, 10, 1/2, 2⟩ ∧
    ¬((⟨7, 5, 10, 10, 9/10, 1⟩ : RawCandidate) ∈
        nonMaxSuppression [⟨7, 5, 10, 10, 9/10, 1⟩, ⟨10, 5, 10, 10, 1/2, 2⟩]
          0 (1/2) 100 ∧
      (⟨10, 5, 10, 10, 1/2, 2⟩ : RawCandidate) ∈
        nonMaxSuppression [⟨7, 5, 10, 10, 9/10, 1⟩, ⟨10, 5, 10, 10, 1/2, 2⟩]
          0 (1/2) 100) :=
  ⟨by norm_num, by norm_num [iou, interArea, interLen, boxArea, RawCandidate.x1,
      RawCandidate.x2, RawCandidate.y1, RawCandidate.y2, min_def, max_def],
    c3_nms_not_both [⟨7, 5, 10, 10, 9/10, 1⟩, ⟨10, 5, 10, 10, 1/2, 2⟩]
      0 (1/2) 100 _ _ (by norm_num) (by norm_num [iou, interArea, interLen, boxArea, RawCandidate.x1,
      RawCandidate.x2, RawCandidate.y1, RawCandidate.y2, min_def, max_def])⟩

/-- C9: when the raw candidate list is empty, or no candidate survives
score thresholding, the detection cycle yields an empty detection list,
chosen index `-1` (none) and a `null` callback argument. -/
theorem c9_empty_cycle (raw : List RawCandidate) (g : FrameGeom)
    (thr s i : ℚ) (m : ℕ)
    (hempty : raw = [] ∨
      (nonMaxSuppression raw s i m).filter (fun det => det.score ≥ thr) = []) :
    detectObjects raw g thr s i m = ⟨[], -1, none⟩ := by
  have hfil : (nonMaxSuppression raw s i m).filter
      (fun det => det.score ≥ thr) = [] := by
    rcases hempty with h | h
    · subst h
      simp [nonMaxSuppression, sortDesc, suppressLoop_nil]
    · exact h
  simp [detectObjects, hfil, pickCenterDetection]

theorem c9_witness :
    (([] : List RawCandidate) = [] ∨
      (nonMaxSuppression [] (1/2) (1/2) 100).filter
        (fun det => det.score ≥ (1:ℚ)/10) = []) ∧
    detectObjects [] ⟨640, 640, 640, 640⟩ (1/10) (1/2) (1/2) 100
      = ⟨[], -1, none⟩ :=
  ⟨Or.inl rfl,
    c9_empty_cycle [] ⟨640, 640, 640, 640⟩ (1/10) (1/2) (1/2) 100 (Or.inl rfl)⟩

theorem filter_ge_eq_filter_le (thr : ℚ) (l : List RawCandidate) :
    (l.filter fun det => det.score ≥ thr) = l.filter fun det => thr ≤ det.score := by
  refine List.filter_congr ?_
  intro a _
  simp [ge_iff_le]

/-- C7: discarding candidates with score below the threshold before the
suppression sweep yields exactly the code's result (which filters the
suppressor's output), and consequently every Detection in the cycle's
output has score at or above the threshold. -/
theorem c7_threshold_commutes (raw : List RawCandidate) (g : FrameGeom)
    (thr scoreThr iouThr : ℚ) (m : ℕ) :
    (nonMaxSuppression raw scoreThr iouThr m).filter (fun det => det.score ≥ thr)
        = nonMaxSuppression (raw.filter fun det => det.score ≥ thr)
            scoreThr iouThr m
      ∧ ∀ d ∈ (detectObjects raw g thr scoreThr iouThr m).detections,
          thr ≤ d.score := by
  constructor
  · simp only [filter_ge_eq_filter_le]
    unfold nonMaxSuppression
    rw [filter_suppressLoop thr iouThr
        (sortDesc (raw.filter fun d => scoreThr ≤ d.score)).length _ le_rfl
        (pairwise_sortDesc _) m,
      filter_sortDesc, filter_filter_comm]
  · intro d hd
    simp only [detectObjects, List.mem_map] at hd
    obtain ⟨r, hr, hdr⟩ := hd
    have h1 := List.of_mem_filter hr
    have hscore : thr ≤ r.score := by simpa using of_decide_eq_true h1
    rw [← hdr]
    exact hscore

/-- C8: when the displayed aspect ratio equals the native aspect ratio
(no crop), mapping a native-space box to displayed space and back through
the inverse displayed → native mapping reproduces the original box
exactly. -/
theorem c8_roundtrip (det : Detection) (vW vH dW dH : ℚ)
    (h1 : 0 < vW) (h2 : 0 < vH) (h3 : 0 < dW) (h4 : 0 < dH)
    (hr : dW / dH = vW / vH) :
    mapToNative (mapToDisplayed det vW vH dW dH) vW vH dW dH = det := by
  have hc : ¬(vW / vH > dW / dH) := by rw [hr]; exact lt_irrefl _
  have hW : vW ≠ 0 := ne_of_gt h1
  have hDW : dW ≠ 0 := ne_of_gt h3
  have hDH : dH ≠ 0 := ne_of_gt h4
  have hsh : vW * (dH / dW) ≠ 0 := mul_ne_zero hW (div_ne_zero hDH hDW)
  obtain ⟨x, y, wd, hg, s, c⟩ := det
  simp only [mapToDisplayed, mapToNative, specSourceRect, if_neg hc,
    Detection.mk.injEq]
  and_intros <;> field_simp <;> ring

theorem c8_witness :
    (0:ℚ) < 640 ∧ (640:ℚ)/640 = 640/640 ∧
    mapToNative (mapToDisplayed ⟨10, 20, 30, 40, 1/2, 3⟩ 640 640 640 640)
      640 640 640 640 = ⟨10, 20, 30, 40, 1/2, 3⟩ :=
  ⟨by norm_num, rfl,
    c8_roundtrip ⟨10, 20, 30, 40, 1/2, 3⟩ 640 640 640 640
      (by norm_num) (by norm_num) (by norm_num) (by norm_num) rfl⟩

theorem pickCenterLoop_none (cx cy : ℚ) :
    ∀ (l : List Detection) (idx : ℤ) (m : ℚ) (best : ℤ),
      (∀ d ∈ l, ¬ centerDist d cx cy < m) →
      pickCenterLoop cx cy l idx m best = best := by
  intro l
  induction l with
  | nil => intro idx m best _; rfl
  | cons d rest ih =>
    intro idx m best hall
    rw [pickCenterLoop, if_neg (hall d (List.mem_cons_self d rest))]
    exact ih _ _ _ fun x hx => hall x (List.mem_cons_of_mem d hx)

theorem pickCenterLoop_argmin (cx cy : ℚ) :
    ∀ (l : List Detection) (idx : ℤ) (m : ℚ) (best : ℤ),
      (∃ d ∈ l, centerDist d cx cy < m) →
      ∃ k : ℕ, ∃ hk : k < l.length,
        pickCenterLoop cx cy l idx m best = idx + k ∧
        centerDist (l.get ⟨k, hk⟩) cx cy < m ∧
        (∀ j (hj : j < l.length),
          centerDist (l.get ⟨k, hk⟩) cx cy ≤ centerDist (l.get ⟨j, hj⟩) cx cy) ∧
        (∀ j (hj : j < l.length), j < k →
          centerDist (l.get ⟨k, hk⟩) cx cy < centerDist (l.get ⟨j, hj⟩) cx cy) := by
  intro l
  induction l with
  | nil =>
    rintro idx m best ⟨d, hd, _⟩
    simp at hd
  | cons d rest ih =>
    intro idx m best hex
    by_cases hd : centerDist d cx cy < m
    · rw [pickCenterLoop, if_pos hd]
      by_cases hrest : ∃ r ∈ rest, centerDist r cx cy < centerDist d cx cy
      · obtain ⟨k', hk', heq, hlt, hmin, hearly⟩ :=
          ih (idx + 1) (centerDist d cx cy) idx hrest
        refine ⟨k' + 1, Nat.succ_lt_succ hk', ?_, ?_, ?_, ?_⟩
        · rw [heq]; push_cast; ring
        · exact lt_trans hlt hd
        · intro j hj
          cases j with
          | zero => exact le_of_lt hlt
          | succ j' => exact hmin j' (Nat.lt_of_succ_lt_succ hj)
        · intro j hj hjk
          cases j with
          | zero => exact hlt
          | succ j' =>
            exact hearly j' (Nat.lt_of_succ_lt_succ hj) (Nat.lt_of_succ_lt_succ hjk)
      · push_neg at hrest
        rw [pickCenterLoop_none cx cy rest (idx + 1) (centerDist d cx cy) idx
          fun r hr => not_lt.mpr (hrest r hr)]
        refine ⟨0, Nat.succ_pos _, by simp, hd, ?_, ?_⟩
        · intro j hj
          cases j with
          | zero => exact le_refl _
          | succ j' =>
            exact hrest _ (List.get_mem rest j' (Nat.lt_of_succ_lt_succ hj))
        · intro j hj hj0
          exact absurd hj0 (Nat.not_lt_zero j)
    · rw [pickCenterLoop, if_neg hd]
      have hmled : m ≤ centerDist d cx cy := not_lt.mp hd
      have hex2 : ∃ r ∈ rest, centerDist r cx cy < m := by
        obtain ⟨x, hx, hxm⟩ := hex
        rcases List.mem_cons.mp hx with hx1 | hx2
        · subst hx1; exact absurd hxm hd
        · exact ⟨x, hx2, hxm⟩
      obtain ⟨k', hk', heq, hlt, hmin, hearly⟩ := ih (idx + 1) m best hex2
      refine ⟨k' + 1, Nat.succ_lt_succ hk', ?_, hlt, ?_, ?_⟩
      · rw [heq]; push_cast; ring
      · intro j hj
        cases j with
        | zero => exact le_of_lt (lt_of_lt_of_le hlt hmled)
        | succ j' => exact hmin j' (Nat.lt_of_succ_lt_succ hj)
      · intro j hj hjk
        cases j with
        | zero => exact lt_of_lt_of_le hlt hmled
        | succ j' =>
          exact hearly j' (Nat.lt_of_succ_lt_succ hj) (Nat.lt_of_succ_lt_succ hjk)

/-- C4 counterexample: `pickCenterDetection` does not return a valid index
for every non-empty list — `minDist` starts at `Number.MAX_VALUE`, so a
single detection whose squared center distance reaches that value (here
`x = 2^600`) is never selected and the function returns `-1` on a
one-element list, although the claim requires `-1` exactly on the empty
list and index `0` on any singleton. -/
theorem c4_cex :
    ([⟨2 ^ 600, 0, 0, 0, 1, 0⟩] : List Detection) ≠ [] ∧
    pickCenterDetection [⟨2 ^ 600, 0, 0, 0, 1, 0⟩] 2 2 = -1 := by
  constructor
  · simp
  · norm_num [pickCenterDetection, pickCenterLoop, centerDist, maxValue]

/-- C4 amended: provided every detection's squared center distance is below
`Number.MAX_VALUE` (the loop's initial `minDist`), the center selector
returns `-1` on the empty list and otherwise the index of the detection
whose center has minimal squared Euclidean distance to the viewport center,
resolving ties by the earliest index; in particular a singleton list yields
index `0`.  Without that bound the function can return `-1` on a non-empty
list. -/
theorem c4_center_selector (l : List Detection) (w h : ℚ)
    (hfin : ∀ d ∈ l, centerDist d (w / 2) (h / 2) < maxValue) :
    (l = [] → pickCenterDetection l w h = -1) ∧
    (l ≠ [] → ∃ k : ℕ, ∃ hk : k < l.length,
      pickCenterDetection l w h = k ∧
      (∀ j (hj : j < l.length),
        centerDist (l.get ⟨k, hk⟩) (w / 2) (h / 2)
          ≤ centerDist (l.get ⟨j, hj⟩) (w / 2) (h / 2)) ∧
      (∀ j (hj : j < l.length), j < k →
        centerDist (l.get ⟨k, hk⟩) (w / 2) (h / 2)
          < centerDist (l.get ⟨j, hj⟩) (w / 2) (h / 2))) ∧
    (∀ d, l = [d] → pickCenterDetection l w h = 0) := by
  refine ⟨?_, ?_, ?_⟩
  · intro he
    subst he
    rfl
  · intro hne
    have hex : ∃ d ∈ l, centerDist d (w / 2) (h / 2) < maxValue := by
      cases l with
      | nil => exact absurd rfl hne
      | cons d rest =>
        exact ⟨d, List.mem_cons_self _ _, hfin d (List.mem_cons_self _ _)⟩
    obtain ⟨k, hk, heq, _, hmin, hearly⟩ :=
      pickCenterLoop_argmin (w / 2) (h / 2) l 0 maxValue (-1) hex
    refine ⟨k, hk, ?_, hmin, hearly⟩
    unfold pickCenterDetection
    rw [if_neg (by simpa [List.isEmpty_iff] using hne), heq, zero_add]
  · intro d hld
    subst hld
    obtain ⟨k, hk, heq, _, _, _⟩ :=
      pickCenterLoop_argmin (w / 2) (h / 2) [d] 0 maxValue (-1)
        ⟨d, by simp, hfin d (by simp)⟩
    have hk0 : k = 0 := Nat.lt_one_iff.mp hk
    subst hk0
    unfold pickCenterDetection
    rw [if_neg (by simp), heq]
    rfl

theorem c4_witness :
    (∀ d ∈ ([⟨0, 0, 1, 1, 1, 0⟩] : List Detection),
      centerDist d (2 / 2) (2 / 2) < maxValue) ∧
    pickCenterDetection [⟨0, 0, 1, 1, 1, 0⟩] 2 2 = 0 :=
  ⟨by
    intro d hd
    rw [List.mem_singleton.mp hd]
    norm_num [centerDist, maxValue],
   (c4_center_selector [⟨0, 0, 1, 1, 1, 0⟩] 2 2 (by
      intro d hd
      rw [List.mem_singleton.mp hd]
      norm_num [centerDist, maxValue])).2.2 ⟨0, 0, 1, 1, 1, 0⟩ rfl⟩
